import Mathlib

/-!
Verification of the staged/published version lifecycle implemented in
`backoffice/remote_resource.py`.

The embedding below translates the Python source into executable Lean
definitions: JSON maps become association lists, the S3 object store becomes
an explicit `Store` record, and every mutating method becomes a function from
`Store` to `Store`.  The status variants, their `step` ordinals, their `name`
strings and the aggregate-document `extend` merge live in
`backoffice/s3_structure/versions.py` (and siblings), which are not part of
the sources at hand; those definitions are modelled from the specification
and marked as such.
-/

namespace Backoffice

/-! ## Association lists

Python `dict`s keyed by stage/publish numbers (or by string categories and
object-store paths).  `aset` mirrors `d[k] = v`: it overwrites in place,
appending when the key is absent, as a Python dict does. -/

universe u v

variable {κ : Type u} {α : Type v} [DecidableEq κ]

def alookup (l : List (κ × α)) (k : κ) : Option α :=
  (l.find? (fun p => p.1 = k)).map (·.2)

def aset (l : List (κ × α)) (k : κ) (v : α) : List (κ × α) :=
  match l with
  | [] => [(k, v)]
  | p :: rest => if p.1 = k then (k, v) :: rest else p :: aset rest k v

def akeys (l : List (κ × α)) : List κ :=
  l.map (·.1)

/-- Python `dict.update`: later entries of `delta` win. -/
def aupdate (l delta : List (κ × α)) : List (κ × α) :=
  delta.foldl (fun acc p => aset acc p.1 p.2) l

/-- Python `d[k].field = v` on a dict known to contain `k`: replace the value
in place, leaving a dict without the key unchanged (the source would raise
`KeyError` there; every call site has already ensured the key is present). -/
def areplace (l : List (κ × α)) (k : κ) (v : α) : List (κ × α) :=
  l.map (fun p => if p.1 = k then (k, v) else p)

def NodupKeys (l : List (κ × α)) : Prop :=
  (akeys l).Nodup

instance (l : List (κ × α)) : Decidable (NodupKeys l) := by
  unfold NodupKeys; infer_instance

/-- Python `max(d)` over the keys of a dict of `Nat` keys (callers guard
against the empty dict). -/
def maxKey (l : List (Nat × α)) : Nat :=
  (akeys l).foldr max 0

/-! ## Status state machine data

`StagedVersionStatus` is the closed tagged union imported from
`backoffice/s3_structure/versions.py`. -/

/-- Modelled from the spec: the closed tagged union of §3, with the payload
fields the spec lists for each variant. -/
inductive StagedVersionStatus : Type where
  | unpacking (description : String)
  | unpacked
  | testing (description : String)
  | awaitingReview
  | changesRequested (description : String)
  | accepted
  | superseded (description : String) (by_ : Nat)
  | publishedStaged (publishNumber : Nat)
deriving DecidableEq, Repr

/-- Modelled from the spec: each variant carries a `step` ordinal used for
ordering (§3); the ordinals follow the spec's listing order, with the
terminal variants above all review steps so that the `awaiting review` →
`superseded` edge is a forward skip exempted from the skip warning. -/
def StagedVersionStatus.step : StagedVersionStatus → Nat
  | .unpacking _ => 1
  | .unpacked => 2
  | .testing _ => 3
  | .awaitingReview => 4
  | .changesRequested _ => 5
  | .accepted => 6
  | .superseded _ _ => 7
  | .publishedStaged _ => 8

/-- Modelled from the spec: the `name` literal of each variant; the two
values compared in `_set_status` ("awaiting review", "superseded") appear
verbatim in `remote_resource.py`. -/
def StagedVersionStatus.name : StagedVersionStatus → String
  | .unpacking _ => "unpacking"
  | .unpacked => "unpacked"
  | .testing _ => "testing"
  | .awaitingReview => "awaiting review"
  | .changesRequested _ => "changes requested"
  | .accepted => "accepted"
  | .superseded _ _ => "superseded"
  | .publishedStaged _ => "published"

/-- Modelled from the spec: `StagedVersionDetails = {status}` (§3). -/
structure StagedVersionDetails : Type where
  status : StagedVersionStatus
deriving DecidableEq, Repr

/-- Modelled from the spec: the `Published{stageNumber}` status (§3). -/
structure PublishedStatus : Type where
  stageNumber : Nat
deriving DecidableEq, Repr

/-- Modelled from the spec: `PublishedVersionDetails = {semVer, status}` (§3). -/
structure PublishedVersionDetails : Type where
  semVer : Option String
  status : PublishedStatus
deriving DecidableEq, Repr

/-- Modelled from the spec: the `Versions` aggregate (§3), one per resource. -/
structure Versions : Type where
  staged : List (Nat × StagedVersionDetails) := []
  published : List (Nat × PublishedVersionDetails) := []
deriving DecidableEq, Repr

/-- Modelled from the spec: the map-valued merge rule of §4.1 — delta entries
overwrite-or-insert by key, untouched keys are preserved. -/
def Versions.extend (current delta : Versions) : Versions :=
  { staged := aupdate current.staged delta.staged
    published := aupdate current.published delta.published }

/-- Modelled from the spec: Logs and Chat are mappings from a category to an
ordered sequence of entries (§3); entry payloads are opaque here. -/
abbrev CatDoc := List (String × List String)

/-- Modelled from the spec: the list-of-entries merge rule of §4.1 — delta
entries are appended per category, in order, no deduplication, no deletion. -/
def CatDoc.extend (current delta : CatDoc) : CatDoc :=
  delta.foldl
    (fun acc p =>
      match alookup acc p.1 with
      | some old => aset acc p.1 (old ++ p.2)
      | none => acc ++ [p])
    current

/-! ## Object store

One resource's slice of the S3 store.  Version folders are
`{id}/staged/{n}/` and `{id}/{n}/`; the two lanes can never collide, which
the structured `Folder` key records.  Objects inside a version folder are the
archive files `files/{name}` (with `files/rdf.yaml` holding the manifest) and
the version-scoped `logs.json` / `chat.json` documents. -/

inductive Folder : Type where
  | staged (n : Nat)
  | published (n : Nat)
deriving DecidableEq, Repr

inductive FilesKey : Type where
  | filesEntry (filename : String)
  | logsJson
  | chatJson
deriving DecidableEq, Repr

structure SPath : Type where
  folder : Folder
  rest : FilesKey
deriving DecidableEq, Repr

/-- Manifest (`rdf.yaml`) contents, as far as the lifecycle core reads and
writes them; parsing/serialisation is an external collaborator. -/
structure Rdf : Type where
  id : Option String := none
  idEmoji : Option String := none
  version : Option String := none
  versionNumber : Option Nat := none
deriving DecidableEq, Repr

inductive Obj : Type where
  | rdf (r : Rdf)
  | blob (data : String)
  | logsDoc (d : CatDoc)
  | chatDoc (d : CatDoc)
deriving DecidableEq, Repr

/-- The persisted state for one resource: its `versions.json` aggregate
(`none` when the object is absent) and the objects under its version
folders. -/
structure Store : Type where
  versionsDoc : Option Versions := none
  files : List (SPath × Obj) := []
deriving DecidableEq, Repr

def fileAt (s : Store) (p : SPath) : Option Obj :=
  alookup s.files p

def putFile (s : Store) (p : SPath) (o : Obj) : Store :=
  { s with files := aset s.files p o }

/-- `RemoteResource._get_json(Versions, ...)`: an absent object yields the
empty default. -/
def loadVersions (s : Store) : Versions :=
  s.versionsDoc.getD {}

/-- `RemoteResource._extend_json`: re-load the current persisted document,
merge the delta onto it, write the result back. -/
def extendVersionsDoc (s : Store) (delta : Versions) : Store :=
  { s with versionsDoc := some ((loadVersions s).extend delta) }

/-- Well-formed store: the persisted maps have no duplicate keys, as Python
dicts cannot.  Every store the code constructs satisfies this. -/
def Store.WF (s : Store) : Prop :=
  NodupKeys (loadVersions s).staged ∧ NodupKeys (loadVersions s).published

instance (s : Store) : Decidable s.WF := by
  unfold Store.WF; infer_instance

/-! ## RemoteResource.stage_new_version (lines 67-91)

`get_latest_stage_number` returns `max(versions.staged)` or `None`;
`stage_new_version` takes that number, substituting `1` when it is `None`,
and creates the `StagedVersion` with it (the source has no `+ 1`). -/

def get_latest_stage_number (versions : Versions) : Option Nat :=
  if versions.staged.isEmpty then none else some (maxKey versions.staged)

/-- The stage number `stage_new_version` allocates for the new candidate. -/
def stage_new_version_number (versions : Versions) : Nat :=
  match get_latest_stage_number versions with
  | none => 1
  | some nr => nr

/-! ## StagedVersion._set_status (lines 317-332)

Loads `versions.json`, applies `setdefault`, drops the request (returning
without a write) when the new step is strictly lower, otherwise records the
status and persists via the read-merge-write `extend`.  The `logger.error`
drop and the `logger.warning` step-skip report are surfaced as an outcome
flag. -/

inductive SetStatusOutcome : Type where
  | recorded
  | warned
  | dropped
deriving DecidableEq, Repr

def setStatusL (s : Store) (number : Nat) (value : StagedVersionStatus) :
    Store × SetStatusOutcome :=
  let versions := loadVersions s
  let details := (alookup versions.staged number).getD { status := value }
  if value.step < details.status.step then
    (s, .dropped)
  else
    let outcome :=
      if (value.step = details.status.step ∨ value.step = details.status.step + 1) ∨
          (details.status.name = "awaiting review" ∧ value.name = "superseded") then
        SetStatusOutcome.recorded
      else
        SetStatusOutcome.warned
    let versions' :=
      { versions with staged := aset versions.staged number { status := value } }
    (extendVersionsDoc s versions', outcome)

def setStatus (s : Store) (number : Nat) (value : StagedVersionStatus) : Store :=
  (setStatusL s number value).1

/-- The persisted status of staged version `number`, read back from the
store. -/
def statusAt (s : Store) (number : Nat) : Option StagedVersionStatus :=
  (alookup (loadVersions s).staged number).map (·.status)

/-! ## Version-scoped documents and StagedVersion.unpack (lines 183-228) -/

def getLogsDoc (s : Store) (n : Nat) : CatDoc :=
  match fileAt s { folder := .staged n, rest := .logsJson } with
  | some (.logsDoc d) => d
  | _ => []

def getChatDoc (s : Store) (n : Nat) : CatDoc :=
  match fileAt s { folder := .staged n, rest := .chatJson } with
  | some (.chatDoc d) => d
  | _ => []

/-- `_extend_version_specific_json(Logs)`: read-merge-write on `logs.json`. -/
def extendLogsDoc (s : Store) (n : Nat) (delta : CatDoc) : Store :=
  putFile s { folder := .staged n, rest := .logsJson }
    (.logsDoc (CatDoc.extend (getLogsDoc s n) delta))

/-- `_extend_version_specific_json(Chat)`: read-merge-write on `chat.json`. -/
def extendChatDoc (s : Store) (n : Nat) (delta : CatDoc) : Store :=
  putFile s { folder := .staged n, rest := .chatJson }
    (.chatDoc (CatDoc.extend (getChatDoc s n) delta))

/-- The folder string `{id}/staged/{n}/`, used inside status descriptions. -/
def stagedFolderStr (resId : String) (n : Nat) : String :=
  resId ++ "/staged/" ++ toString n ++ "/"

inductive UnpackError : Type where
  | missingRdf
  | idMismatch (expected got : String)
  | missingIdEmoji
deriving DecidableEq, Repr

/-- Lines 208-221: the straight-line manifest validation of `unpack` — the
declared-id check (an absent id is filled in with the resource id), the
`version_number` stamp, and the `id_emoji` requirement, in source order. -/
def validateRdf (resId : String) (n : Nat) (rdf : Rdf) : Except UnpackError Rdf :=
  match rdf.id with
  | none => validateRdfStamped resId n { rdf with id := some resId }
  | some rid =>
      if rid = resId then validateRdfStamped resId n rdf
      else .error (.idMismatch resId rid)
where
  validateRdfStamped (_resId : String) (n : Nat) (rdf : Rdf) : Except UnpackError Rdf :=
    let rdf := { rdf with versionNumber := some n }
    if rdf.idEmoji = none then .error .missingIdEmoji else .ok rdf

/-- Lines 184-193 of `unpack`: ensure `chat.json` and `logs.json` exist and
record the first (`unpacking`) status, before the archive is touched. -/
def unpackPrepared (s : Store) (resId : String) (n : Nat) (packageUrl : String) : Store :=
  let s := extendChatDoc s n (getChatDoc s n)
  let s := extendLogsDoc s n (getLogsDoc s n)
  setStatus s n
    (.unpacking ("unzipping " ++ packageUrl ++ " to " ++ stagedFolderStr resId n))

/-- `StagedVersion.unpack`.  The archive transport and YAML parse are
collaborators: `zipEntries` is the fetched archive's member list in order,
with the `rdf.yaml` member carried as its parse.  Errors leave the store as
mutated so far, exactly as a raised exception does. -/
def unpack (s : Store) (resId : String) (n : Nat) (packageUrl : String)
    (zipEntries : List (String × Obj)) : Except UnpackError Unit × Store :=
  let s := unpackPrepared s resId n packageUrl
  match alookup zipEntries "rdf.yaml" with
  | some (.rdf rdf0) =>
      match validateRdf resId n rdf0 with
      | .error e => (.error e, s)
      | .ok _ =>
          let s := zipEntries.foldl
            (fun st p =>
              putFile st { folder := .staged n, rest := .filesEntry p.1 } p.2) s
          let s := setStatus s n .unpacked
          (.ok (), s)
  | _ => (.error .missingRdf, s)

/-! ## StagedVersion.publish (lines 243-315) -/

inductive PublishError : Type where
  | missingRdf
  | conflict (semVer : String)
deriving DecidableEq, Repr

/-- One iteration of the supersede scan (lines 248-269): skip newer staged
versions and terminal statuses, supersede the live ones.  The isinstance
dispatch is the exhaustive match below; the source's `assert_never` arm is
the absence of any further case. -/
def scanStep (number : Nat) (st : Store) (p : Nat × StagedVersionDetails) : Store :=
  if number ≤ p.1 then st
  else
    match p.2.status with
    | .superseded _ _ => st
    | .publishedStaged _ => st
    | .unpacking _ | .unpacked | .testing _ | .awaitingReview
    | .changesRequested _ | .accepted =>
        setStatus st p.1 (.superseded ("Superseded by " ++ toString number) number)

/-- Lines 248-269: the supersede scan over the `versions.staged` snapshot. -/
def supersedeScan (s : Store) (stagedSnapshot : List (Nat × StagedVersionDetails))
    (number : Nat) : Store :=
  stagedSnapshot.foldl (scanStep number) s

/-- `client.cp_dir(src, dst)`: copy every object under the source folder to
the same relative key under the destination folder, overwriting. -/
def cpDir (s : Store) (src dst : Folder) : Store :=
  (s.files.filter (fun p => p.1.folder = src)).foldl
    (fun st p => putFile st { folder := dst, rest := p.1.rest } p.2) s

/-- Lines 289-315: the commit tail of `publish`, reached once the semantic
version check has passed — stamped manifest write, bulk copy, and the final
registry `extend`. -/
def publishCommit (s : Store) (versions : Versions) (number pub : Nat) (rdf : Rdf)
    (semVer : Option String) : Except PublishError Nat × Store :=
  let stamped := { rdf with versionNumber := some pub }
  let s := putFile s { folder := .published pub, rest := .filesEntry "rdf.yaml" }
    (.rdf stamped)
  let s := cpDir s (.staged number) (.published pub)
  let versions :=
    { versions with
        staged := areplace versions.staged number { status := .publishedStaged pub } }
  let versions :=
    { versions with
        published := aset versions.published pub
          { semVer := semVer, status := { stageNumber := number } } }
  (.ok pub, extendVersionsDoc s versions)

/-- Line 245: the saga's first step, `self._set_status(AcceptedStatus())`. -/
def publishAccepted (s : Store) (number : Nat) : Store :=
  setStatus s number .accepted

/-- Line 246: the `versions` snapshot the saga re-loads after accepting. -/
def publishSnapshot (s : Store) (number : Nat) : Versions :=
  loadVersions (publishAccepted s number)

/-- Lines 246-269: the store once the supersede scan over the snapshot has
run. -/
def publishScanned (s : Store) (number : Nat) : Store :=
  supersedeScan (publishAccepted s number) (publishSnapshot s number).staged number

/-- `StagedVersion.publish`: accept, supersede older candidates, allocate the
next publish number, guard against a duplicate semantic version, then
commit.  A raised exception returns the store as mutated so far. -/
def publish (s0 : Store) (number : Nat) : Except PublishError Nat × Store :=
  let versions := publishSnapshot s0 number
  let s := publishScanned s0 number
  let nextPublishNr :=
    if versions.published.isEmpty then 1 else maxKey versions.published + 1
  match fileAt s { folder := .staged number, rest := .filesEntry "rdf.yaml" } with
  | some (.rdf rdf) =>
      match rdf.version with
      | some semVer =>
          if (versions.published.map (fun p => p.2.semVer)).contains (some semVer) then
            (.error (.conflict semVer), s)
          else
            publishCommit s versions number nextPublishNr rdf (some semVer)
      | none => publishCommit s versions number nextPublishNr rdf none
  | _ => (.error .missingRdf, s)

/-! ## Derived notions used in statements -/

/-- A sequence of status-transition requests on one staged version, applied
in order through `_set_status`. -/
def applyStatuses (s : Store) (number : Nat) (vs : List StagedVersionStatus) : Store :=
  vs.foldl (fun st v => setStatus st number v) s

/-- The two statuses the supersede scan skips (the terminal ones). -/
def StagedVersionStatus.isTerminalStatus : StagedVersionStatus → Bool
  | .superseded _ _ => true
  | .publishedStaged _ => true
  | _ => false

/-- Whether a status is the `superseded` variant. -/
def StagedVersionStatus.isSupersededStatus : StagedVersionStatus → Bool
  | .superseded _ _ => true
  | _ => false

/-! ## The document-level read-merge-write protocol (lines 101-129)

`_get_json` / `_extend_json` seen at the level of one persisted document:
`persisted = none` models an absent object. -/

/-- `_get_json(Versions, path)`: an absent document is the empty default. -/
def getJsonVersions (persisted : Option Versions) : Versions :=
  persisted.getD {}

/-- `_extend_json` for the `Versions` aggregate: the document that ends up
persisted after the read-merge-write round trip. -/
def extendJsonVersions (persisted : Option Versions) (delta : Versions) : Versions :=
  (getJsonVersions persisted).extend delta

/-- `_get_json(Logs, path)` / `_get_json(Chat, path)`: an absent document is
the empty default. -/
def getJsonCat (persisted : Option CatDoc) : CatDoc :=
  persisted.getD []

/-- `_extend_json` for the Logs/Chat documents. -/
def extendJsonCat (persisted : Option CatDoc) (delta : CatDoc) : CatDoc :=
  CatDoc.extend (getJsonCat persisted) delta

/-! ## Example stores for concrete runs -/

/-- A resource with one published version (semantic version "0.1.0") and two
staged candidates awaiting review; the second candidate's manifest declares
semantic version "0.2.0". -/
def publishReadyStore : Store :=
  { versionsDoc := some
      { staged := [(1, { status := .awaitingReview }), (2, { status := .awaitingReview })]
        published := [(1, { semVer := some "0.1.0", status := { stageNumber := 1 } })] }
    files := [({ folder := .staged 2, rest := .filesEntry "rdf.yaml" },
               .rdf { id := some "res", idEmoji := some "smile", version := some "0.2.0" }),
              ({ folder := .staged 2, rest := .filesEntry "weights.bin" }, .blob "W")] }

/-- The same resource, but the staged candidate's manifest re-declares the
already-published semantic version "0.1.0". -/
def conflictStore : Store :=
  { versionsDoc := some
      { staged := [(1, { status := .awaitingReview }), (2, { status := .awaitingReview })]
        published := [(1, { semVer := some "0.1.0", status := { stageNumber := 1 } })] }
    files := [({ folder := .staged 2, rest := .filesEntry "rdf.yaml" },
               .rdf { id := some "res", idEmoji := some "smile", version := some "0.1.0" }),
              ({ folder := .staged 2, rest := .filesEntry "weights.bin" }, .blob "W")] }

/-- A two-member archive whose manifest carries the given resource id and
display emoji. -/
def exampleArchive (rid emoji : Option String) : List (String × Obj) :=
  [("rdf.yaml", .rdf { id := rid, idEmoji := emoji, version := some "0.1.0" }),
   ("weights.bin", .blob "W")]

/-! ## Association-list lemmas -/

@[simp]
theorem alookup_nil (k : κ) : alookup ([] : List (κ × α)) k = none := rfl

theorem alookup_cons (p : κ × α) (l : List (κ × α)) (k : κ) :
    alookup (p :: l) k = if p.1 = k then some p.2 else alookup l k := by
  by_cases h : p.1 = k
  · simp [alookup, List.find?_cons_of_pos, h]
  · simp [alookup, List.find?_cons_of_neg, h]

theorem alookup_eq_none_iff (l : List (κ × α)) (k : κ) :
    alookup l k = none ↔ k ∉ akeys l := by
  induction l with
  | nil => simp [akeys]
  | cons p rest ih =>
      by_cases h : p.1 = k
      · simp [alookup_cons, akeys, h, ih]
      · simp only [alookup_cons, akeys, if_neg h, List.map_cons, List.mem_cons]
        rw [ih]
        unfold akeys
        tauto

theorem mem_of_alookup_eq_some {l : List (κ × α)} {k : κ} {v : α}
    (h : alookup l k = some v) : (k, v) ∈ l := by
  induction l with
  | nil => simp [alookup] at h
  | cons p rest ih =>
      rw [alookup_cons] at h
      by_cases hp : p.1 = k
      · simp only [hp, if_true] at h
        have hpv : p = (k, v) := by
          cases p with
          | mk a b =>
            simp only at hp h
            simp only [Prod.mk.injEq]
            exact ⟨hp, Option.some.inj h⟩
        rw [hpv]
        exact List.mem_cons_self _ _
      · simp only [hp, if_false] at h
        exact List.mem_cons_of_mem p (ih h)

theorem mem_akeys_of_alookup_eq_some {l : List (κ × α)} {k : κ} {v : α}
    (h : alookup l k = some v) : k ∈ akeys l := by
  have := mem_of_alookup_eq_some h
  exact List.mem_map.mpr ⟨(k, v), this, rfl⟩

@[simp]
theorem alookup_aset_self (l : List (κ × α)) (k : κ) (v : α) :
    alookup (aset l k v) k = some v := by
  induction l with
  | nil => simp [aset, alookup_cons]
  | cons p rest ih =>
      by_cases h : p.1 = k <;> simp [aset, h, alookup_cons, ih]

theorem alookup_aset_ne (l : List (κ × α)) {k k' : κ} (v : α) (h : k' ≠ k) :
    alookup (aset l k v) k' = alookup l k' := by
  have hk : ¬(k = k') := fun e => h e.symm
  induction l with
  | nil => simp [aset, alookup_cons, hk]
  | cons p rest ih =>
      by_cases hp : p.1 = k
      · rw [show aset (p :: rest) k v = (k, v) :: rest by simp [aset, hp],
          alookup_cons, alookup_cons, if_neg hk, if_neg (by rw [hp]; exact hk)]
      · rw [show aset (p :: rest) k v = p :: aset rest k v by simp [aset, hp],
          alookup_cons, alookup_cons, ih]

theorem mem_akeys_aset {l : List (κ × α)} {k a : κ} {v : α}
    (h : a ∈ akeys (aset l k v)) : a ∈ akeys l ∨ a = k := by
  induction l with
  | nil => simp [aset, akeys] at h; right; exact h
  | cons p rest ih =>
      by_cases hp : p.1 = k
      · simp [aset, hp, akeys] at h ⊢
        rcases h with h | h
        · right; exact h
        · left; right; exact h
      · simp [aset, hp, akeys] at h ⊢
        rcases h with h | h
        · left; left; exact h
        · rcases ih (by simpa [akeys] using h) with h2 | h2
          · left; right; simpa [akeys] using h2
          · right; exact h2

theorem nodupKeys_aset {l : List (κ × α)} (k : κ) (v : α) (h : NodupKeys l) :
    NodupKeys (aset l k v) := by
  induction l with
  | nil => simp [aset, NodupKeys, akeys]
  | cons p rest ih =>
      unfold NodupKeys akeys at h
      simp only [List.map_cons, List.nodup_cons] at h
      by_cases hp : p.1 = k
      · unfold NodupKeys akeys
        simp only [aset, hp, if_true, List.map_cons, List.nodup_cons]
        exact ⟨by simpa [hp, akeys] using h.1, h.2⟩
      · unfold NodupKeys akeys
        simp only [aset, hp, if_false, List.map_cons, List.nodup_cons]
        constructor
        · intro hmem
          rcases mem_akeys_aset (by simpa [akeys] using hmem) with h2 | h2
          · exact h.1 (by simpa [akeys] using h2)
          · exact hp h2
        · exact ih h.2

theorem aset_eq_self_of_mem {l : List (κ × α)} {k : κ} {v : α}
    (hn : NodupKeys l) (hm : (k, v) ∈ l) : aset l k v = l := by
  induction l with
  | nil => simp at hm
  | cons p rest ih =>
      unfold NodupKeys akeys at hn
      simp only [List.map_cons, List.nodup_cons] at hn
      rcases List.mem_cons.mp hm with h | h
      · simp [aset, ← h]
      · have hp : p.1 ≠ k := by
          intro he
          exact hn.1 (he ▸ List.mem_map.mpr ⟨(k, v), h, rfl⟩)
        simp [aset, hp, ih hn.2 h]

theorem alookup_aupdate_of_not_mem {delta : List (κ × α)} {k : κ}
    (h : k ∉ akeys delta) (l : List (κ × α)) :
    alookup (aupdate l delta) k = alookup l k := by
  induction delta generalizing l with
  | nil => rfl
  | cons p rest ih =>
      unfold akeys at h
      simp only [List.map_cons, List.mem_cons] at h
      push_neg at h
      have : aupdate l (p :: rest) = aupdate (aset l p.1 p.2) rest := rfl
      rw [this, ih (by simpa [akeys] using h.2), alookup_aset_ne _ _ h.1]

theorem alookup_aupdate_of_lookup {delta : List (κ × α)} {k : κ} {v : α}
    (hn : NodupKeys delta) (hl : alookup delta k = some v) (l : List (κ × α)) :
    alookup (aupdate l delta) k = some v := by
  induction delta generalizing l with
  | nil => simp at hl
  | cons p rest ih =>
      unfold NodupKeys akeys at hn
      simp only [List.map_cons, List.nodup_cons] at hn
      rw [alookup_cons] at hl
      have hstep : aupdate l (p :: rest) = aupdate (aset l p.1 p.2) rest := rfl
      by_cases hp : p.1 = k
      · simp only [hp, if_true] at hl
        rw [hstep, alookup_aupdate_of_not_mem (hp ▸ hn.1), hp, alookup_aset_self, hl]
      · simp only [hp, if_false] at hl
        rw [hstep, ih hn.2 hl]

theorem nodupKeys_aupdate {l : List (κ × α)} (delta : List (κ × α))
    (h : NodupKeys l) : NodupKeys (aupdate l delta) := by
  induction delta generalizing l with
  | nil => exact h
  | cons p rest ih => exact ih (nodupKeys_aset p.1 p.2 h)

theorem aupdate_eq_self_of_sub {l delta : List (κ × α)}
    (hn : NodupKeys l) (hsub : ∀ p ∈ delta, p ∈ l) : aupdate l delta = l := by
  induction delta with
  | nil => rfl
  | cons p rest ih =>
      have hstep : aupdate l (p :: rest) = aupdate (aset l p.1 p.2) rest := rfl
      rw [hstep, aset_eq_self_of_mem hn (hsub p (List.mem_cons_self p rest))]
      exact ih (fun q hq => hsub q (List.mem_cons_of_mem p hq))

theorem aupdate_self {l : List (κ × α)} (hn : NodupKeys l) : aupdate l l = l :=
  aupdate_eq_self_of_sub hn (fun _ hq => hq)

theorem alookup_of_mem {l : List (κ × α)} {k : κ} {v : α}
    (hn : NodupKeys l) (hm : (k, v) ∈ l) : alookup l k = some v := by
  induction l with
  | nil => simp at hm
  | cons p rest ih =>
      unfold NodupKeys akeys at hn
      simp only [List.map_cons, List.nodup_cons] at hn
      rcases List.mem_cons.mp hm with h | h
      · rw [← h, alookup_cons]; simp
      · have hp : p.1 ≠ k := by
          intro he
          exact hn.1 (he ▸ List.mem_map.mpr ⟨(k, v), h, rfl⟩)
        rw [alookup_cons, if_neg hp]
        exact ih hn.2 h

@[simp]
theorem akeys_areplace (l : List (κ × α)) (k : κ) (v : α) :
    akeys (areplace l k v) = akeys l := by
  induction l with
  | nil => rfl
  | cons p rest ih =>
      by_cases hp : p.1 = k <;> simp [areplace, akeys, hp] at ih ⊢ <;> exact ih

theorem alookup_areplace_self {l : List (κ × α)} {k : κ} {w : α} (v : α)
    (h : alookup l k = some w) : alookup (areplace l k v) k = some v := by
  induction l with
  | nil => simp at h
  | cons p rest ih =>
      rw [alookup_cons] at h
      by_cases hp : p.1 = k
      · simp [areplace, hp, alookup_cons]
      · simp only [hp, if_false] at h
        simp only [areplace, List.map_cons, if_neg hp, alookup_cons]
        simpa [areplace] using ih h

theorem alookup_append_left {l l2 : List (κ × α)} {k : κ} {v : α}
    (h : alookup l k = some v) : alookup (l ++ l2) k = some v := by
  induction l with
  | nil => simp at h
  | cons p rest ih =>
      rw [alookup_cons] at h
      by_cases hp : p.1 = k
      · simp only [hp, if_true] at h
        simp [alookup_cons, hp, h]
      · simp only [hp, if_false] at h
        simp [alookup_cons, hp, ih h]

theorem alookup_append_of_none {l l2 : List (κ × α)} {k : κ}
    (h : alookup l k = none) : alookup (l ++ l2) k = alookup l2 k := by
  induction l with
  | nil => simp
  | cons p rest ih =>
      rw [alookup_cons] at h
      by_cases hp : p.1 = k
      · simp [hp] at h
      · simp only [hp, if_false] at h
        simp [alookup_cons, hp, ih h]

theorem maxKey_mem {l : List (Nat × α)} (h : l ≠ []) : maxKey l ∈ akeys l := by
  induction l with
  | nil => exact absurd rfl h
  | cons p rest ih =>
      unfold maxKey akeys
      simp only [List.map_cons, List.foldr_cons]
      by_cases hr : rest = []
      · subst hr
        simp only [List.map_nil, List.foldr_nil]
        rw [Nat.max_eq_left (Nat.zero_le _)]
        exact List.mem_cons_self _ _
      · rcases max_choice p.1 ((rest.map (·.1)).foldr max 0) with hc | hc
        · rw [hc]; exact List.mem_cons_self _ _
        · rw [hc]
          exact List.mem_cons_of_mem _ (by simpa [maxKey, akeys] using ih hr)

theorem le_maxKey {l : List (Nat × α)} {k : Nat} (h : k ∈ akeys l) :
    k ≤ maxKey l := by
  induction l with
  | nil => simp [akeys] at h
  | cons p rest ih =>
      unfold akeys at h
      simp only [List.map_cons, List.mem_cons] at h
      unfold maxKey akeys
      simp only [List.map_cons, List.foldr_cons]
      rcases h with h | h
      · rw [h]; exact Nat.le_max_left _ _
      · exact le_trans (ih (by simpa [akeys] using h)) (Nat.le_max_right _ _)

theorem eq_of_key_mem_nodup {l : List (κ × α)} {k : κ} {v : α} {p : κ × α}
    (hn : NodupKeys l) (h1 : (k, v) ∈ l) (h2 : p ∈ l) (hk : p.1 = k) : p = (k, v) := by
  have e1 : alookup l k = some v := alookup_of_mem hn h1
  have e2 : alookup l p.1 = some p.2 := alookup_of_mem hn h2
  rw [hk, e1] at e2
  cases p with
  | mk a b =>
      simp only at hk
      simp only [Prod.mk.injEq]
      exact ⟨hk, (Option.some.inj e2).symm⟩

/-! ## Store-level lemmas -/

theorem loadVersions_extendVersionsDoc (s : Store) (delta : Versions) :
    loadVersions (extendVersionsDoc s delta) = (loadVersions s).extend delta := rfl

theorem files_extendVersionsDoc (s : Store) (delta : Versions) :
    (extendVersionsDoc s delta).files = s.files := rfl

theorem versionsDoc_putFile (s : Store) (p : SPath) (o : Obj) :
    (putFile s p o).versionsDoc = s.versionsDoc := rfl

theorem fileAt_putFile_self (s : Store) (p : SPath) (o : Obj) :
    fileAt (putFile s p o) p = some o :=
  alookup_aset_self s.files p o

theorem fileAt_putFile_ne (s : Store) (p : SPath) (o : Obj) {q : SPath} (h : q ≠ p) :
    fileAt (putFile s p o) q = fileAt s q :=
  alookup_aset_ne s.files o h

theorem files_setStatus (s : Store) (n : Nat) (v : StagedVersionStatus) :
    (setStatus s n v).files = s.files := by
  unfold setStatus setStatusL
  dsimp only
  split
  · rfl
  · rfl

theorem published_setStatus (s : Store) (n : Nat) (v : StagedVersionStatus)
    (h : NodupKeys (loadVersions s).published) :
    (loadVersions (setStatus s n v)).published = (loadVersions s).published := by
  unfold setStatus setStatusL
  dsimp only
  split
  · rfl
  · simp only [loadVersions_extendVersionsDoc, Versions.extend]
    exact aupdate_self h

theorem WF_setStatus (s : Store) (n : Nat) (v : StagedVersionStatus)
    (h : s.WF) : (setStatus s n v).WF := by
  unfold setStatus setStatusL
  dsimp only
  split
  · exact h
  · constructor
    · exact nodupKeys_aupdate _ h.1
    · exact nodupKeys_aupdate _ h.2

theorem setStatusL_of_lower {s : Store} {n : Nat} {v : StagedVersionStatus}
    {d : StagedVersionDetails} (hd : alookup (loadVersions s).staged n = some d)
    (hlt : v.step < d.status.step) : setStatusL s n v = (s, .dropped) := by
  unfold setStatusL
  dsimp only
  rw [hd]
  simp only [Option.getD_some]
  rw [if_pos hlt]

theorem statusAt_setStatus_self_of_ge {s : Store} {n : Nat} {v : StagedVersionStatus}
    (hn : NodupKeys (loadVersions s).staged)
    (hge : ∀ d, alookup (loadVersions s).staged n = some d → ¬(v.step < d.status.step)) :
    statusAt (setStatus s n v) n = some v := by
  have hkey : alookup (aupdate (loadVersions s).staged
      (aset (loadVersions s).staged n { status := v })) n = some { status := v } :=
    alookup_aupdate_of_lookup
      (nodupKeys_aset n ({ status := v } : StagedVersionDetails) hn)
      (alookup_aset_self (loadVersions s).staged n { status := v }) _
  unfold setStatus setStatusL
  dsimp only
  cases hl : alookup (loadVersions s).staged n with
  | none =>
      rw [if_neg (show ¬(v.step < ((none :
          Option StagedVersionDetails).getD { status := v }).status.step) from lt_irrefl _)]
      simp only [statusAt, loadVersions_extendVersionsDoc, Versions.extend]
      rw [hkey]
      rfl
  | some d =>
      rw [if_neg (show ¬(v.step < ((some d).getD { status := v }).status.step) from hge d hl)]
      simp only [statusAt, loadVersions_extendVersionsDoc, Versions.extend]
      rw [hkey]
      rfl

theorem statusAt_setStatus_ne {s : Store} {n : Nat} {v : StagedVersionStatus} {m : Nat}
    (hm : m ≠ n) (hn : NodupKeys (loadVersions s).staged) :
    statusAt (setStatus s n v) m = statusAt s m := by
  unfold setStatus setStatusL
  dsimp only
  split
  · rfl
  · simp only [statusAt, loadVersions_extendVersionsDoc, Versions.extend]
    cases hml : alookup (loadVersions s).staged m with
    | none =>
        have hno : alookup (aset (loadVersions s).staged n { status := v }) m = none := by
          rw [alookup_aset_ne _ _ hm, hml]
        rw [alookup_aupdate_of_not_mem ((alookup_eq_none_iff _ m).mp hno), hml]
    | some w =>
        have hsw : alookup (aset (loadVersions s).staged n { status := v }) m = some w := by
          rw [alookup_aset_ne _ _ hm, hml]
        rw [alookup_aupdate_of_lookup (nodupKeys_aset n { status := v } hn) hsw]

theorem statusAt_setStatus_isSome (s : Store) (n : Nat) (v : StagedVersionStatus)
    (hn : NodupKeys (loadVersions s).staged) :
    (statusAt (setStatus s n v) n).isSome := by
  cases hl : alookup (loadVersions s).staged n with
  | none =>
      rw [statusAt_setStatus_self_of_ge hn (by intro d hd; rw [hl] at hd; cases hd)]
      rfl
  | some d =>
      by_cases hlt : v.step < d.status.step
      · have : setStatus s n v = s := congrArg Prod.fst (setStatusL_of_lower hl hlt)
        rw [this]
        unfold statusAt
        rw [hl]
        rfl
      · rw [statusAt_setStatus_self_of_ge hn
          (by intro d2 hd2; rw [hl] at hd2; cases hd2; exact hlt)]
        rfl

theorem statusAt_setStatus_mono {s : Store} {n : Nat} (v : StagedVersionStatus)
    {d : StagedVersionStatus} (hn : NodupKeys (loadVersions s).staged)
    (hd : statusAt s n = some d) :
    ∃ d', statusAt (setStatus s n v) n = some d' ∧ d.step ≤ d'.step := by
  unfold statusAt at hd
  cases hl : alookup (loadVersions s).staged n with
  | none => rw [hl] at hd; cases hd
  | some det =>
      rw [hl] at hd
      have hds : det.status = d := Option.some.inj hd
      by_cases hlt : v.step < det.status.step
      · refine ⟨d, ?_, le_refl _⟩
        have hss : setStatus s n v = s := congrArg Prod.fst (setStatusL_of_lower hl hlt)
        rw [hss]
        unfold statusAt
        rw [hl]
        exact hd
      · refine ⟨v, ?_, ?_⟩
        · exact statusAt_setStatus_self_of_ge hn
            (by intro d2 hd2; rw [hl] at hd2; cases hd2; exact hlt)
        · rw [← hds]; exact le_of_not_lt hlt

theorem setStatusL_absent {s : Store} {n : Nat} (v : StagedVersionStatus)
    (hn : NodupKeys (loadVersions s).staged)
    (h : alookup (loadVersions s).staged n = none) :
    (setStatusL s n v).2 = .recorded ∧ statusAt (setStatus s n v) n = some v := by
  constructor
  · unfold setStatusL
    dsimp only
    rw [h]
    simp only [Option.getD_none]
    rw [if_neg (lt_irrefl _)]
    simp
  · exact statusAt_setStatus_self_of_ge hn (by intro d hd; rw [h] at hd; cases hd)

/-! ## Supersede-scan lemmas -/

theorem step_le_six_of_not_terminal {st : StagedVersionStatus}
    (h : st.isTerminalStatus = false) : st.step ≤ 6 := by
  cases st <;> simp [StagedVersionStatus.isTerminalStatus, StagedVersionStatus.step] at h ⊢

theorem files_scanStep (n : Nat) (st : Store) (p : Nat × StagedVersionDetails) :
    (scanStep n st p).files = st.files := by
  unfold scanStep
  split
  · rfl
  · split <;> first | rfl | exact files_setStatus _ _ _

theorem WF_scanStep (n : Nat) (st : Store) (p : Nat × StagedVersionDetails)
    (h : st.WF) : (scanStep n st p).WF := by
  unfold scanStep
  split
  · exact h
  · split <;> first | exact h | exact WF_setStatus _ _ _ h

theorem published_scanStep (n : Nat) (st : Store) (p : Nat × StagedVersionDetails)
    (h : st.WF) :
    (loadVersions (scanStep n st p)).published = (loadVersions st).published := by
  unfold scanStep
  split
  · rfl
  · split <;> first | rfl | exact published_setStatus _ _ _ h.2

theorem statusAt_scanStep_ne (n : Nat) (st : Store) (p : Nat × StagedVersionDetails)
    {m : Nat} (hm : m ≠ p.1) (h : st.WF) :
    statusAt (scanStep n st p) m = statusAt st m := by
  unfold scanStep
  split
  · rfl
  · split <;> first | rfl | exact statusAt_setStatus_ne hm h.1

theorem files_supersedeScan (s : Store) (l : List (Nat × StagedVersionDetails)) (n : Nat) :
    (supersedeScan s l n).files = s.files := by
  induction l generalizing s with
  | nil => rfl
  | cons p rest ih =>
      have hstep : supersedeScan s (p :: rest) n = supersedeScan (scanStep n s p) rest n := rfl
      rw [hstep, ih, files_scanStep]

theorem WF_supersedeScan (s : Store) (l : List (Nat × StagedVersionDetails)) (n : Nat)
    (h : s.WF) : (supersedeScan s l n).WF := by
  induction l generalizing s with
  | nil => exact h
  | cons p rest ih =>
      have hstep : supersedeScan s (p :: rest) n = supersedeScan (scanStep n s p) rest n := rfl
      rw [hstep]
      exact ih _ (WF_scanStep n s p h)

theorem published_supersedeScan (s : Store) (l : List (Nat × StagedVersionDetails))
    (n : Nat) (h : s.WF) :
    (loadVersions (supersedeScan s l n)).published = (loadVersions s).published := by
  induction l generalizing s with
  | nil => rfl
  | cons p rest ih =>
      have hstep : supersedeScan s (p :: rest) n = supersedeScan (scanStep n s p) rest n := rfl
      rw [hstep, ih _ (WF_scanStep n s p h), published_scanStep n s p h]

theorem statusAt_supersedeScan_of_not_mem (s : Store)
    (l : List (Nat × StagedVersionDetails)) (n : Nat) {m : Nat}
    (h : s.WF) (hnot : ∀ p ∈ l, p.1 ≠ m) :
    statusAt (supersedeScan s l n) m = statusAt s m := by
  induction l generalizing s with
  | nil => rfl
  | cons p rest ih =>
      have hstep : supersedeScan s (p :: rest) n = supersedeScan (scanStep n s p) rest n := rfl
      rw [hstep, ih _ (WF_scanStep n s p h) (fun q hq => hnot q (List.mem_cons_of_mem p hq)),
        statusAt_scanStep_ne n s p (fun e => hnot p (List.mem_cons_self p rest) e.symm) h]

omit [DecidableEq κ] in
theorem nodupKeys_tail {p : κ × α} {rest : List (κ × α)}
    (h : NodupKeys (p :: rest)) : NodupKeys rest := by
  unfold NodupKeys akeys at h ⊢
  simp only [List.map_cons, List.nodup_cons] at h
  exact h.2

omit [DecidableEq κ] in
theorem not_mem_keys_of_nodup_cons {p : κ × α} {rest : List (κ × α)}
    (h : NodupKeys (p :: rest)) : ∀ q ∈ rest, q.1 ≠ p.1 := by
  unfold NodupKeys akeys at h
  simp only [List.map_cons, List.nodup_cons] at h
  intro q hq he
  exact h.1 (he ▸ List.mem_map.mpr ⟨q, hq, rfl⟩)

theorem statusAt_supersedeScan_live (s : Store) (l : List (Nat × StagedVersionDetails))
    (n : Nat) {nr : Nat} {d : StagedVersionDetails}
    (hwf : s.WF) (hnl : NodupKeys l) (hmem : (nr, d) ∈ l)
    (hcons : statusAt s nr = some d.status)
    (hlt : nr < n) (hlive : d.status.isTerminalStatus = false) :
    statusAt (supersedeScan s l n) nr =
      some (.superseded ("Superseded by " ++ toString n) n) := by
  induction l generalizing s with
  | nil => simp at hmem
  | cons p rest ih =>
      have hstep : supersedeScan s (p :: rest) n = supersedeScan (scanStep n s p) rest n := rfl
      by_cases hp : p.1 = nr
      · have hpd : p = (nr, d) := eq_of_key_mem_nodup hnl hmem (List.mem_cons_self p rest) hp
        have hset : scanStep n s p =
            setStatus s nr (.superseded ("Superseded by " ++ toString n) n) := by
          rw [hpd]
          unfold scanStep
          rw [if_neg (by simpa using hlt)]
          rcases hd : d.status with d1 | d1 | d1 | d1 | d1 | d1 | d1 | d1 <;>
            simp only <;> first
              | rfl
              | (rw [hd] at hlive; simp [StagedVersionStatus.isTerminalStatus] at hlive)
        have hafter : statusAt (scanStep n s p) nr =
            some (.superseded ("Superseded by " ++ toString n) n) := by
          rw [hset]
          apply statusAt_setStatus_self_of_ge hwf.1
          intro d2 hd2
          have : d2.status = d.status := by
            unfold statusAt at hcons
            rw [hd2] at hcons
            exact Option.some.inj hcons
          rw [this]
          simp only [StagedVersionStatus.step]
          exact not_lt_of_ge (le_trans (step_le_six_of_not_terminal hlive) (by norm_num))
        rw [hstep,
          statusAt_supersedeScan_of_not_mem _ rest n (WF_scanStep n s p hwf)
            (fun q hq e => (not_mem_keys_of_nodup_cons hnl q hq) (e.trans hp.symm)),
          hafter]
      · have hmem2 : (nr, d) ∈ rest := by
          rcases List.mem_cons.mp hmem with he | he
          · exact absurd (congrArg Prod.fst he.symm) hp
          · exact he
        rw [hstep]
        exact ih _ (WF_scanStep n s p hwf) (nodupKeys_tail hnl) hmem2
          ((statusAt_scanStep_ne n s p (fun e => hp e.symm) hwf).trans hcons)

theorem statusAt_supersedeScan_skip (s : Store) (l : List (Nat × StagedVersionDetails))
    (n : Nat) {nr : Nat} {d : StagedVersionDetails}
    (hwf : s.WF) (hnl : NodupKeys l) (hmem : (nr, d) ∈ l)
    (hskip : n ≤ nr ∨ d.status.isTerminalStatus = true) :
    statusAt (supersedeScan s l n) nr = statusAt s nr := by
  induction l generalizing s with
  | nil => rfl
  | cons p rest ih =>
      have hstep : supersedeScan s (p :: rest) n = supersedeScan (scanStep n s p) rest n := rfl
      by_cases hp : p.1 = nr
      · have hpd : p = (nr, d) := eq_of_key_mem_nodup hnl hmem (List.mem_cons_self p rest) hp
        have hid : scanStep n s p = s := by
          rw [hpd]
          unfold scanStep
          rcases hskip with hs | hs
          · rw [if_pos (by simpa using hs)]
          · split
            · rfl
            · rcases he : d.status with d1 | d1 | d1 | d1 | d1 | d2 | d1 | d1 <;>
                simp only <;> first
                  | rfl
                  | (rw [he] at hs; simp [StagedVersionStatus.isTerminalStatus] at hs)
        rw [hstep, hid]
        exact statusAt_supersedeScan_of_not_mem s rest n hwf
          (fun q hq e => (not_mem_keys_of_nodup_cons hnl q hq) (e.trans hp.symm))
      · have hmem2 : (nr, d) ∈ rest := by
          rcases List.mem_cons.mp hmem with he | he
          · exact absurd (congrArg Prod.fst he.symm) hp
          · exact he
        rw [hstep,
          ih _ (WF_scanStep n s p hwf) (nodupKeys_tail hnl) hmem2,
          statusAt_scanStep_ne n s p (fun e => hp e.symm) hwf]

/-! ## File-write fold lemmas -/

theorem versionsDoc_foldl_putFile {A : Type} (L : List A) (f : A → SPath) (g : A → Obj)
    (st : Store) :
    (L.foldl (fun acc a => putFile acc (f a) (g a)) st).versionsDoc = st.versionsDoc := by
  induction L generalizing st with
  | nil => rfl
  | cons a rest ih => rw [List.foldl_cons, ih]; rfl

theorem fileAt_foldl_putFile_ne {A : Type} (L : List A) (f : A → SPath) (g : A → Obj)
    (st : Store) {p : SPath} (h : ∀ a ∈ L, f a ≠ p) :
    fileAt (L.foldl (fun acc a => putFile acc (f a) (g a)) st) p = fileAt st p := by
  induction L generalizing st with
  | nil => rfl
  | cons a rest ih =>
      rw [List.foldl_cons, ih _ (fun b hb => h b (List.mem_cons_of_mem a hb)),
        fileAt_putFile_ne st (f a) (g a) (fun e => h a (List.mem_cons_self a rest) e.symm)]

theorem versionsDoc_cpDir (s : Store) (src dst : Folder) :
    (cpDir s src dst).versionsDoc = s.versionsDoc :=
  versionsDoc_foldl_putFile _ _ _ s

theorem fileAt_cpDir_ne (s : Store) (src dst : Folder) {p : SPath}
    (h : p.folder ≠ dst) :
    fileAt (cpDir s src dst) p = fileAt s p :=
  fileAt_foldl_putFile_ne _ _ _ s (fun a _ e => h (by rw [← e]))

theorem fileAt_extendVersionsDoc (s : Store) (delta : Versions) (p : SPath) :
    fileAt (extendVersionsDoc s delta) p = fileAt s p := rfl

theorem fileAt_zipfold_mem (L : List (String × Obj)) (n : Nat) (st : Store)
    (hnd : (L.map (·.1)).Nodup) {filename : String} {o : Obj} (hm : (filename, o) ∈ L) :
    fileAt (L.foldl
        (fun acc q => putFile acc { folder := .staged n, rest := .filesEntry q.1 } q.2) st)
      { folder := .staged n, rest := .filesEntry filename } = some o := by
  induction L generalizing st with
  | nil => simp at hm
  | cons q rest ih =>
      simp only [List.map_cons, List.nodup_cons] at hnd
      by_cases hq : q.1 = filename
      · have hqm : q = (filename, o) := by
          rcases List.mem_cons.mp hm with he | he
          · exact he.symm
          · exact absurd (hq ▸ List.mem_map.mpr ⟨(filename, o), he, rfl⟩) hnd.1
        rw [List.foldl_cons,
          fileAt_foldl_putFile_ne rest _ _ _
            (fun b hb e => by
              have h2 := congrArg SPath.rest e
              simp only at h2
              injection h2 with h3
              apply hnd.1
              rw [hq, ← h3]
              exact List.mem_map.mpr ⟨b, hb, rfl⟩),
          hqm]
        exact fileAt_putFile_self st _ o
      · have hmem2 : (filename, o) ∈ rest := by
          rcases List.mem_cons.mp hm with he | he
          · exact absurd (congrArg Prod.fst he.symm) hq
          · exact he
        rw [List.foldl_cons]
        exact ih _ hnd.2 hmem2

/-! ## Publish lemmas -/

theorem publishCommit_fst (s : Store) (versions : Versions) (number pub : Nat)
    (rdf : Rdf) (semVer : Option String) :
    (publishCommit s versions number pub rdf semVer).1 = .ok pub := rfl

theorem published_publishCommit (s : Store) (versions : Versions) (number pub : Nat)
    (rdf : Rdf) (semVer : Option String) (hn : NodupKeys versions.published) :
    alookup (loadVersions (publishCommit s versions number pub rdf semVer).2).published pub
      = some { semVer := semVer, status := { stageNumber := number } } := by
  unfold publishCommit
  dsimp only
  rw [loadVersions_extendVersionsDoc]
  simp only [Versions.extend]
  exact alookup_aupdate_of_lookup (nodupKeys_aset pub _ hn)
    (alookup_aset_self versions.published pub _) _

theorem staged_publishCommit (s : Store) (versions : Versions) (number pub : Nat)
    (rdf : Rdf) (semVer : Option String) (hn : NodupKeys versions.staged)
    {d : StagedVersionDetails} (hd : alookup versions.staged number = some d) :
    alookup (loadVersions (publishCommit s versions number pub rdf semVer).2).staged number
      = some { status := .publishedStaged pub } := by
  unfold publishCommit
  dsimp only
  rw [loadVersions_extendVersionsDoc]
  simp only [Versions.extend]
  apply alookup_aupdate_of_lookup
  · unfold NodupKeys
    rw [akeys_areplace]
    exact hn
  · exact alookup_areplace_self _ hd

theorem fileAt_publishCommit_ne (s : Store) (versions : Versions) (number pub : Nat)
    (rdf : Rdf) (semVer : Option String) {p : SPath} (hp : p.folder ≠ .published pub) :
    fileAt (publishCommit s versions number pub rdf semVer).2 p = fileAt s p := by
  unfold publishCommit
  dsimp only
  rw [fileAt_extendVersionsDoc, fileAt_cpDir_ne _ _ _ hp,
    fileAt_putFile_ne _ _ _ (fun e => hp (by rw [e]))]

/-- The publish number the saga computes from its snapshot (lines 271-274). -/
def nextPublishNumber (versions : Versions) : Nat :=
  if versions.published.isEmpty then 1 else maxKey versions.published + 1

theorem publish_ok_inv {s : Store} {number pub : Nat} {s' : Store}
    (h : publish s number = (.ok pub, s')) :
    ∃ rdf, fileAt (publishScanned s number)
        { folder := .staged number, rest := .filesEntry "rdf.yaml" } = some (.rdf rdf) ∧
      pub = nextPublishNumber (publishSnapshot s number) ∧
      s' = (publishCommit (publishScanned s number) (publishSnapshot s number) number pub
        rdf rdf.version).2 := by
  unfold publish at h
  dsimp only at h
  unfold nextPublishNumber
  cases hfa : fileAt (publishScanned s number)
      { folder := .staged number, rest := .filesEntry "rdf.yaml" } with
  | none =>
      rw [hfa] at h
      exact absurd (congrArg Prod.fst h) (by simp)
  | some obj =>
      rw [hfa] at h
      cases obj with
      | blob d => exact absurd (congrArg Prod.fst h) (by simp)
      | logsDoc d => exact absurd (congrArg Prod.fst h) (by simp)
      | chatDoc d => exact absurd (congrArg Prod.fst h) (by simp)
      | rdf r =>
          dsimp only at h
          refine ⟨r, rfl, ?_⟩
          cases hv : r.version with
          | none =>
              rw [hv] at h
              dsimp only at h
              have h1 := congrArg Prod.fst h
              rw [publishCommit_fst] at h1
              have hpub := (Except.ok.inj h1).symm
              refine ⟨hpub, ?_⟩
              rw [← hpub] at h
              exact (congrArg Prod.snd h).symm
          | some sv =>
              rw [hv] at h
              dsimp only at h
              by_cases hc : (List.map (fun p => p.2.semVer)
                  (publishSnapshot s number).published).contains (some sv) = true
              · rw [if_pos hc] at h
                exact absurd (congrArg Prod.fst h) (by simp)
              · rw [if_neg hc] at h
                have h1 := congrArg Prod.fst h
                rw [publishCommit_fst] at h1
                have hpub := (Except.ok.inj h1).symm
                refine ⟨hpub, ?_⟩
                rw [← hpub] at h
                exact (congrArg Prod.snd h).symm

theorem applyStatuses_mono (s : Store) (n : Nat) (vs : List StagedVersionStatus)
    (hwf : s.WF) {d : StagedVersionStatus} (hd : statusAt s n = some d) :
    ∃ d', statusAt (applyStatuses s n vs) n = some d' ∧ d.step ≤ d'.step := by
  induction vs generalizing s d with
  | nil => exact ⟨d, hd, le_refl _⟩
  | cons v rest ih =>
      have hstep : applyStatuses s n (v :: rest) = applyStatuses (setStatus s n v) n rest := rfl
      obtain ⟨d1, hd1, hle1⟩ := statusAt_setStatus_mono v hwf.1 hd
      obtain ⟨d2, hd2, hle2⟩ := ih (setStatus s n v) (WF_setStatus s n v hwf) hd1
      exact ⟨d2, hstep ▸ hd2, le_trans hle1 hle2⟩

omit [DecidableEq κ] in
theorem akeys_append (l l2 : List (κ × α)) : akeys (l ++ l2) = akeys l ++ akeys l2 := by
  unfold akeys
  rw [List.map_append]

theorem catDoc_extend_disjoint (current delta : CatDoc) (hd : NodupKeys delta)
    (hdisj : ∀ k, k ∈ akeys current → k ∉ akeys delta) :
    (∀ k w, alookup current k = some w → alookup (CatDoc.extend current delta) k = some w)
    ∧ (∀ k w, alookup delta k = some w → alookup (CatDoc.extend current delta) k = some w) := by
  induction delta generalizing current with
  | nil =>
      refine ⟨fun k w h => h, fun k w h => ?_⟩
      simp at h
  | cons p rest ih =>
      have hpk : alookup current p.1 = none := by
        rw [alookup_eq_none_iff]
        intro hmem
        exact hdisj p.1 hmem (by unfold akeys; simp)
      have hstep : CatDoc.extend current (p :: rest) =
          CatDoc.extend (current ++ [p]) rest := by
        unfold CatDoc.extend
        rw [List.foldl_cons, hpk]
      have hdisj2 : ∀ k, k ∈ akeys (current ++ [p]) → k ∉ akeys rest := by
        intro k hk
        rw [akeys_append] at hk
        rcases List.mem_append.mp hk with hk | hk
        · intro hr
          exact hdisj k hk (by unfold akeys at hr ⊢; simp; right; simpa [akeys] using hr)
        · have hkp : k = p.1 := by simpa [akeys] using hk
          rw [hkp]
          intro hr
          unfold akeys at hr
          rcases List.mem_map.mp hr with ⟨q, hq, he⟩
          exact (not_mem_keys_of_nodup_cons hd q hq) he
      obtain ⟨ih1, ih2⟩ := ih (current ++ [p]) (nodupKeys_tail hd) hdisj2
      constructor
      · intro k w hk
        rw [hstep]
        exact ih1 k w (alookup_append_left hk)
      · intro k w hk
        rw [alookup_cons] at hk
        by_cases hp : p.1 = k
        · simp only [hp, if_true] at hk
          rw [hstep]
          apply ih1 k w
          rw [← hp, alookup_append_of_none hpk, alookup_cons]
          simpa using hk
        · simp only [hp, if_false] at hk
          rw [hstep]
          exact ih2 k w hk

/-! ## Claim theorems -/

/-- C1: the claim says `stage_new_version` allocates the new stage number as
(max existing staged number) + 1, never reissuing a used number.  The source
(`remote_resource.py` lines 83-91) allocates `get_latest_stage_number()`
itself, only substituting 1 when there is none: with one staged version
numbered 1 it allocates 1 again, reissuing the used number instead of
allocating 2. -/
theorem c1_stage_number_reissued :
    stage_new_version_number
        { staged := [(1, { status := .awaitingReview })], published := [] } = 1
    ∧ 1 ∈ akeys ({ staged := [(1, { status := .awaitingReview })],
                   published := [] } : Versions).staged
    ∧ stage_new_version_number
        { staged := [(1, { status := .awaitingReview })], published := [] }
      ≠ maxKey ({ staged := [(1, { status := .awaitingReview })],
                  published := [] } : Versions).staged + 1 := by
  refine ⟨rfl, ?_, ?_⟩
  · decide
  · decide

/-- C3: for any sequence of status-transition requests on one staged
version, the recorded step is non-decreasing; a `superseded` request on top
of `awaiting review` is accepted; any other request with a strictly lower
step is dropped with the prior status retained and only the `dropped`
outcome logged, nothing raised to the caller. -/
theorem c3_step_monotonic_with_exception (s : Store) (n : Nat) (hwf : s.WF) :
    (∀ v d, statusAt s n = some d → v.step < d.step →
        ¬(d = .awaitingReview ∧ v.isSupersededStatus = true) →
        setStatusL s n v = (s, .dropped))
    ∧ (∀ desc b, statusAt s n = some .awaitingReview →
        statusAt (setStatus s n (.superseded desc b)) n = some (.superseded desc b))
    ∧ (∀ vs d, statusAt s n = some d →
        ∃ d', statusAt (applyStatuses s n vs) n = some d' ∧ d.step ≤ d'.step) := by
  refine ⟨?_, ?_, ?_⟩
  · intro v d hd hlt _
    unfold statusAt at hd
    cases hl : alookup (loadVersions s).staged n with
    | none => rw [hl] at hd; cases hd
    | some det =>
        rw [hl] at hd
        have hds : det.status = d := by simpa using hd
        exact setStatusL_of_lower hl (by rw [hds]; exact hlt)
  · intro desc b hd
    apply statusAt_setStatus_self_of_ge hwf.1
    intro det hdet
    unfold statusAt at hd
    rw [hdet] at hd
    have hda : det.status = .awaitingReview := by simpa using hd
    rw [hda]
    simp [StagedVersionStatus.step]
  · intro vs d hd
    exact applyStatuses_mono s n vs hwf hd

/-- C3 witness: a store whose staged version 1 awaits review; a `testing`
request (lower step) is dropped with the store unchanged, while a
`superseded` request is accepted. -/
theorem c3_witness :
    ({ versionsDoc := some { staged := [(1, { status := .awaitingReview })],
                             published := [] },
       files := [] } : Store).WF
    ∧ setStatusL { versionsDoc := some { staged := [(1, { status := .awaitingReview })],
                                         published := [] },
                   files := [] } 1 (.testing "rerun")
      = ({ versionsDoc := some { staged := [(1, { status := .awaitingReview })],
                                 published := [] },
           files := [] }, .dropped)
    ∧ statusAt (setStatus { versionsDoc := some { staged := [(1, { status := .awaitingReview })],
                                                  published := [] },
                            files := [] } 1 (.superseded "Superseded by 2" 2)) 1
      = some (.superseded "Superseded by 2" 2) := by
  refine ⟨by decide, ?_, ?_⟩
  · exact (c3_step_monotonic_with_exception _ 1 (by decide)).1 (.testing "rerun")
      .awaitingReview (by decide) (by decide) (by decide)
  · exact (c3_step_monotonic_with_exception _ 1 (by decide)).2.1 "Superseded by 2" 2
      (by decide)

/-- C9: the first status ever recorded for a staged version — one whose
number has no entry in the persisted staged map — is recorded and persisted
whatever variant or step it has, with the plain `recorded` outcome: it is
never dropped as a regression and never reported as an anomaly. -/
theorem c9_first_status_always_recorded (s : Store) (n : Nat)
    (v : StagedVersionStatus) (hwf : s.WF)
    (habs : alookup (loadVersions s).staged n = none) :
    (setStatusL s n v).2 = .recorded ∧ statusAt (setStatus s n v) n = some v :=
  setStatusL_absent v hwf.1 habs

/-- C9 witness: on an empty store even the top-step `publishedStaged` status
is recorded as the first status of version 1. -/
theorem c9_witness :
    ({} : Store).WF ∧ alookup (loadVersions {}).staged 1 = none
    ∧ (setStatusL {} 1 (.publishedStaged 5)).2 = .recorded
    ∧ statusAt (setStatus {} 1 (.publishedStaged 5)) 1 = some (.publishedStaged 5) :=
  ⟨by decide, by decide,
    (c9_first_status_always_recorded {} 1 (.publishedStaged 5) (by decide) (by decide)).1,
    (c9_first_status_always_recorded {} 1 (.publishedStaged 5) (by decide) (by decide)).2⟩

/-- C8: for the map-valued `Versions` aggregate and for the list-of-entries
Logs/Chat documents alike, `load; extend(delta); load` with a delta whose
keys are disjoint from the persisted document's keys yields the key-wise
union — every original key keeps its value and every delta key is present —
and loading an absent document yields the empty default (total functions,
nothing raised). -/
theorem c8_extend_roundtrip :
    (∀ (p : Option Versions) (delta : Versions),
      NodupKeys delta.staged → NodupKeys delta.published →
      (∀ k, k ∈ akeys (getJsonVersions p).staged → k ∉ akeys delta.staged) →
      (∀ k, k ∈ akeys (getJsonVersions p).published → k ∉ akeys delta.published) →
      (∀ k w, alookup (getJsonVersions p).staged k = some w →
        alookup (extendJsonVersions p delta).staged k = some w)
      ∧ (∀ k w, alookup delta.staged k = some w →
        alookup (extendJsonVersions p delta).staged k = some w)
      ∧ (∀ k w, alookup (getJsonVersions p).published k = some w →
        alookup (extendJsonVersions p delta).published k = some w)
      ∧ (∀ k w, alookup delta.published k = some w →
        alookup (extendJsonVersions p delta).published k = some w))
    ∧ (∀ (p : Option CatDoc) (delta : CatDoc), NodupKeys delta →
      (∀ k, k ∈ akeys (getJsonCat p) → k ∉ akeys delta) →
      (∀ k w, alookup (getJsonCat p) k = some w →
        alookup (extendJsonCat p delta) k = some w)
      ∧ (∀ k w, alookup delta k = some w →
        alookup (extendJsonCat p delta) k = some w))
    ∧ getJsonVersions none = { staged := [], published := [] }
    ∧ getJsonCat none = [] := by
  refine ⟨?_, ?_, rfl, rfl⟩
  · intro p delta hns hnp hds hdp
    refine ⟨?_, ?_, ?_, ?_⟩
    · intro k w hk
      unfold extendJsonVersions Versions.extend
      dsimp only
      exact (alookup_aupdate_of_not_mem
        (fun hmem => hds k (mem_akeys_of_alookup_eq_some hk) hmem) _).trans hk
    · intro k w hk
      unfold extendJsonVersions Versions.extend
      dsimp only
      exact alookup_aupdate_of_lookup hns hk _
    · intro k w hk
      unfold extendJsonVersions Versions.extend
      dsimp only
      exact (alookup_aupdate_of_not_mem
        (fun hmem => hdp k (mem_akeys_of_alookup_eq_some hk) hmem) _).trans hk
    · intro k w hk
      unfold extendJsonVersions Versions.extend
      dsimp only
      exact alookup_aupdate_of_lookup hnp hk _
  · intro p delta hnd hdisj
    exact catDoc_extend_disjoint (getJsonCat p) delta hnd hdisj

/-- C8 witness: a persisted Versions document `{staged 1, published 1}`
extended with a disjoint delta `{staged 2, published 2}` keeps both original
entries and gains both delta entries; a chat document gains a fresh
category; the absent documents load as the empty defaults. -/
theorem c8_witness :
    (alookup (extendJsonVersions
        (some { staged := [(1, { status := .unpacked })],
                published := [(1, { semVer := some "0.1.0",
                                    status := { stageNumber := 1 } })] })
        { staged := [(2, { status := .accepted })],
          published := [(2, { semVer := none, status := { stageNumber := 2 } })] }).staged 1
      = some { status := .unpacked })
    ∧ (alookup (extendJsonVersions
        (some { staged := [(1, { status := .unpacked })],
                published := [(1, { semVer := some "0.1.0",
                                    status := { stageNumber := 1 } })] })
        { staged := [(2, { status := .accepted })],
          published := [(2, { semVer := none, status := { stageNumber := 2 } })] }).staged 2
      = some { status := .accepted })
    ∧ alookup (extendJsonCat (some [("reviews", ["ok"])]) [("tests", ["pass"])]) "reviews"
      = some ["ok"]
    ∧ alookup (extendJsonCat (some [("reviews", ["ok"])]) [("tests", ["pass"])]) "tests"
      = some ["pass"] := by
  refine ⟨?_, ?_, ?_, ?_⟩
  · exact (c8_extend_roundtrip.1
      (some { staged := [(1, { status := .unpacked })],
              published := [(1, { semVer := some "0.1.0",
                                  status := { stageNumber := 1 } })] })
      { staged := [(2, { status := .accepted })],
        published := [(2, { semVer := none, status := { stageNumber := 2 } })] }
      (by decide) (by decide) (by decide) (by decide)).1 1 { status := .unpacked } (by decide)
  · exact (c8_extend_roundtrip.1
      (some { staged := [(1, { status := .unpacked })],
              published := [(1, { semVer := some "0.1.0",
                                  status := { stageNumber := 1 } })] })
      { staged := [(2, { status := .accepted })],
        published := [(2, { semVer := none, status := { stageNumber := 2 } })] }
      (by decide) (by decide) (by decide) (by decide)).2.1 2 { status := .accepted } (by decide)
  · exact (c8_extend_roundtrip.2.1 (some [("reviews", ["ok"])]) [("tests", ["pass"])]
      (by decide) (by decide)).1 "reviews" ["ok"] (by decide)
  · exact (c8_extend_roundtrip.2.1 (some [("reviews", ["ok"])]) [("tests", ["pass"])]
      (by decide) (by decide)).2 "tests" ["pass"] (by decide)

/-- C4: a successful `publish()` computes the new publish number as
(max existing published number) + 1 — 1 when the resource has no published
versions — and records the new published entry, carrying this stage number,
under exactly that publish number. -/
theorem c4_publish_number (s : Store) (number pub : Nat) (s' : Store) (hwf : s.WF)
    (h : publish s number = (.ok pub, s')) :
    ((loadVersions s).published = [] → pub = 1)
    ∧ ((loadVersions s).published ≠ [] →
        pub = maxKey (loadVersions s).published + 1
        ∧ maxKey (loadVersions s).published ∈ akeys (loadVersions s).published
        ∧ ∀ k ∈ akeys (loadVersions s).published, k ≤ maxKey (loadVersions s).published)
    ∧ ∃ sv, alookup (loadVersions s').published pub
        = some { semVer := sv, status := { stageNumber := number } } := by
  obtain ⟨rdf, hrdf, hpub, hs'⟩ := publish_ok_inv h
  have hsnap : (publishSnapshot s number).published = (loadVersions s).published := by
    unfold publishSnapshot publishAccepted
    exact published_setStatus s number .accepted hwf.2
  refine ⟨?_, ?_, ⟨rdf.version, ?_⟩⟩
  · intro he
    rw [hpub]
    unfold nextPublishNumber
    rw [hsnap, he]
    rfl
  · intro hne
    refine ⟨?_, maxKey_mem hne, fun k hk => le_maxKey hk⟩
    rw [hpub]
    unfold nextPublishNumber
    rw [hsnap, if_neg (by simpa using hne)]
  · rw [hs']
    exact published_publishCommit _ _ number pub rdf rdf.version
      (by rw [hsnap]; exact hwf.2)

/-- C4 witness: publishing stage 2 of a resource whose only published
version is number 1 yields publish number 2 = max + 1, recorded with stage
number 2. -/
theorem c4_witness :
    publishReadyStore.WF
    ∧ publish publishReadyStore 2 = (.ok 2, (publish publishReadyStore 2).2)
    ∧ ∃ sv, alookup (loadVersions (publish publishReadyStore 2).2).published 2
        = some { semVer := sv, status := { stageNumber := 2 } } :=
  ⟨by decide, by rfl,
    (c4_publish_number publishReadyStore 2 2 (publish publishReadyStore 2).2
      (by decide) (by rfl)).2.2⟩

/-- C5: during `publish()` of stage `number`, the supersede scan over the
re-loaded snapshot transitions every staged version with a strictly lower
number and non-terminal status to `Superseded(by = number)`, and leaves
versions with terminal (`superseded`/`publishedStaged`) status or number ≥
`number` unchanged; the dispatch is an exhaustive match over all
`StagedVersionStatus` variants, so no unrecognized variant can reach it. -/
theorem c5_supersede_scan (s : Store) (number : Nat) (hwf : s.WF) :
    ∀ nr d, alookup (publishSnapshot s number).staged nr = some d →
      (nr < number → d.status.isTerminalStatus = false →
        statusAt (publishScanned s number) nr
          = some (.superseded ("Superseded by " ++ toString number) number))
      ∧ ((number ≤ nr ∨ d.status.isTerminalStatus = true) →
        statusAt (publishScanned s number) nr = statusAt (publishAccepted s number) nr) := by
  intro nr d hd
  have hwf2 : (publishAccepted s number).WF := WF_setStatus s number .accepted hwf
  have hnl : NodupKeys (publishSnapshot s number).staged := hwf2.1
  have hmem : (nr, d) ∈ (publishSnapshot s number).staged := mem_of_alookup_eq_some hd
  have hcons : statusAt (publishAccepted s number) nr = some d.status := by
    unfold statusAt
    rw [show loadVersions (publishAccepted s number) = publishSnapshot s number from rfl, hd]
    rfl
  constructor
  · intro hlt hlive
    unfold publishScanned
    exact statusAt_supersedeScan_live _ _ _ hwf2 hnl hmem hcons hlt hlive
  · intro hskip
    unfold publishScanned
    exact statusAt_supersedeScan_skip _ _ _ hwf2 hnl hmem hskip

/-- C5 witness: scanning for stage 2 supersedes the live stage 1 with
`Superseded(by = 2)` and leaves stage 2 itself (the accepted candidate)
unchanged. -/
theorem c5_witness :
    publishReadyStore.WF
    ∧ alookup (publishSnapshot publishReadyStore 2).staged 1
        = some { status := .awaitingReview }
    ∧ statusAt (publishScanned publishReadyStore 2) 1
        = some (.superseded "Superseded by 2" 2)
    ∧ alookup (publishSnapshot publishReadyStore 2).staged 2
        = some { status := .accepted }
    ∧ statusAt (publishScanned publishReadyStore 2) 2
        = statusAt (publishAccepted publishReadyStore 2) 2 := by
  refine ⟨by decide, by decide, ?_, by decide, ?_⟩
  · have hres := (c5_supersede_scan publishReadyStore 2 (by decide) 1
      { status := .awaitingReview } (by decide)).1 (by decide) (by decide)
    simpa using hres
  · exact (c5_supersede_scan publishReadyStore 2 (by decide) 2
      { status := .accepted } (by decide)).2 (by decide)

/-- C7: a successful `publish()` copies the staged files rather than moving
them: every object in the staged version's file area survives, byte-for-byte
at the same path, into the final store, and the staged registry entry also
survives, its status now `publishedStaged pub`. -/
theorem c7_publish_keeps_staged (s : Store) (number pub : Nat) (s' : Store) (hwf : s.WF)
    (h : publish s number = (.ok pub, s')) :
    (∀ p o, fileAt s p = some o → p.folder = .staged number → fileAt s' p = some o)
    ∧ alookup (loadVersions s').staged number = some { status := .publishedStaged pub } := by
  obtain ⟨rdf, hrdf, hpub, hs'⟩ := publish_ok_inv h
  have hwf2 : (publishAccepted s number).WF := WF_setStatus s number .accepted hwf
  constructor
  · intro p o hp hfold
    rw [hs', fileAt_publishCommit_ne _ _ _ _ _ _ (by rw [hfold]; simp)]
    unfold publishScanned publishAccepted
    unfold fileAt
    rw [files_supersedeScan, files_setStatus]
    exact hp
  · rw [hs']
    have hsome := statusAt_setStatus_isSome s number .accepted hwf.1
    unfold statusAt at hsome
    cases hl : alookup (loadVersions (setStatus s number .accepted)).staged number with
    | none => rw [hl] at hsome; cases hsome
    | some d =>
        exact staged_publishCommit _ _ number pub rdf rdf.version hwf2.1
          (show alookup (publishSnapshot s number).staged number = some d from hl)

theorem fileAt_setStatus (s : Store) (n : Nat) (v : StagedVersionStatus) (p : SPath) :
    fileAt (setStatus s n v) p = fileAt s p := by
  unfold fileAt
  rw [files_setStatus]

theorem fileAt_unpackPrepared (s : Store) (resId : String) (n : Nat)
    (packageUrl : String) {p : SPath}
    (hp1 : p.rest ≠ .chatJson) (hp2 : p.rest ≠ .logsJson) :
    fileAt (unpackPrepared s resId n packageUrl) p = fileAt s p := by
  unfold unpackPrepared
  dsimp only
  rw [fileAt_setStatus]
  unfold extendLogsDoc
  rw [fileAt_putFile_ne _ _ _ (fun e => hp2 (congrArg SPath.rest e))]
  unfold extendChatDoc
  rw [fileAt_putFile_ne _ _ _ (fun e => hp1 (congrArg SPath.rest e))]

theorem loadVersions_unpackPrepared_inner (s : Store) (n : Nat) :
    loadVersions (extendLogsDoc (extendChatDoc s n (getChatDoc s n)) n
      (getLogsDoc (extendChatDoc s n (getChatDoc s n)) n)) = loadVersions s := rfl

theorem statusAt_unpackPrepared_absent (s : Store) (resId : String) (n : Nat)
    (packageUrl : String) (hwf : s.WF) (habs : alookup (loadVersions s).staged n = none) :
    statusAt (unpackPrepared s resId n packageUrl) n
      = some (.unpacking ("unzipping " ++ packageUrl ++ " to " ++ stagedFolderStr resId n))
    ∧ (unpackPrepared s resId n packageUrl).WF := by
  unfold unpackPrepared
  dsimp only
  have hwf2 : (extendLogsDoc (extendChatDoc s n (getChatDoc s n)) n
      (getLogsDoc (extendChatDoc s n (getChatDoc s n)) n)).WF := by
    unfold Store.WF
    rw [loadVersions_unpackPrepared_inner]
    exact hwf
  have habs2 : alookup (loadVersions (extendLogsDoc (extendChatDoc s n (getChatDoc s n)) n
      (getLogsDoc (extendChatDoc s n (getChatDoc s n)) n))).staged n = none := by
    rw [loadVersions_unpackPrepared_inner]
    exact habs
  exact ⟨(setStatusL_absent _ hwf2.1 habs2).2, WF_setStatus _ n _ hwf2⟩

theorem validateRdf_mismatch {x resId : String} (n : Nat) (rdf : Rdf)
    (h : rdf.id = some x) (hne : x ≠ resId) :
    validateRdf resId n rdf = .error (.idMismatch resId x) := by
  unfold validateRdf
  rw [h]
  dsimp only
  rw [if_neg hne]

theorem validateRdf_missingEmoji (resId : String) (n : Nat) (rdf : Rdf)
    (hid : rdf.id = none ∨ rdf.id = some resId) (he : rdf.idEmoji = none) :
    validateRdf resId n rdf = .error .missingIdEmoji := by
  unfold validateRdf validateRdf.validateRdfStamped
  rcases hid with h | h
  · rw [h]
    dsimp only
    rw [if_pos he]
  · rw [h]
    dsimp only
    rw [if_pos rfl]
    rw [if_pos he]

theorem validateRdf_ok (resId : String) (n : Nat) (rdf : Rdf)
    (hid : rdf.id = none ∨ rdf.id = some resId) (he : rdf.idEmoji ≠ none) :
    ∃ r', validateRdf resId n rdf = .ok r' ∧ r'.id = some resId := by
  unfold validateRdf validateRdf.validateRdfStamped
  rcases hid with h | h
  · rw [h]
    dsimp only
    rw [if_neg he]
    exact ⟨_, rfl, rfl⟩
  · rw [h]
    dsimp only
    rw [if_pos rfl]
    rw [if_neg he]
    exact ⟨_, rfl, rfl⟩

/-- C2: the claim says a duplicate semantic version makes `publish()` fail
with zero persisted mutations.  The conflict is detected only after the
saga's accept and supersede steps have each persisted: on `conflictStore`
the publish of stage 2 raises the conflict, yet the persisted status of
stage 2 has moved from `awaitingReview` to `accepted` and stage 1 has been
superseded — mutations the claim says cannot happen. -/
theorem c2_counterexample :
    (publish conflictStore 2).1 = .error (.conflict "0.1.0")
    ∧ statusAt conflictStore 2 = some .awaitingReview
    ∧ statusAt (publish conflictStore 2).2 2 = some .accepted
    ∧ statusAt conflictStore 1 = some .awaitingReview
    ∧ statusAt (publish conflictStore 2).2 1 = some (.superseded "Superseded by 2" 2) := by
  refine ⟨?_, ?_, ?_, ?_, ?_⟩
  · rfl
  · rfl
  · rfl
  · rfl
  · rfl

/-- C2 amended: on a duplicate semantic version `publish()` raises the
conflict error and stops exactly at the accept-and-supersede intermediate
state: no file object is touched, the published registry is unchanged and no
`publishedStaged` entry is written — but the `accepted` status of this
version and the supersessions of older live candidates, persisted before the
check, remain. -/
theorem c2_conflict_aborts_before_commit (s : Store) (number : Nat) (hwf : s.WF)
    (rdf : Rdf) (sv : String)
    (hrdf : fileAt s { folder := .staged number, rest := .filesEntry "rdf.yaml" }
      = some (.rdf rdf))
    (hv : rdf.version = some sv)
    (hdup : ((loadVersions s).published.map (fun p => p.2.semVer)).contains (some sv)
      = true) :
    publish s number = (.error (.conflict sv), publishScanned s number)
    ∧ (publishScanned s number).files = s.files
    ∧ (loadVersions (publishScanned s number)).published = (loadVersions s).published := by
  have hfiles : (publishScanned s number).files = s.files := by
    unfold publishScanned publishAccepted
    rw [files_supersedeScan, files_setStatus]
  have hsnap : (publishSnapshot s number).published = (loadVersions s).published := by
    unfold publishSnapshot publishAccepted
    exact published_setStatus s number .accepted hwf.2
  have hpubeq : (loadVersions (publishScanned s number)).published
      = (loadVersions s).published := by
    unfold publishScanned
    rw [published_supersedeScan (publishAccepted s number) _ _
      (show (publishAccepted s number).WF from WF_setStatus s number .accepted hwf)]
    exact hsnap
  have hfa : fileAt (publishScanned s number)
      { folder := .staged number, rest := .filesEntry "rdf.yaml" } = some (.rdf rdf) := by
    unfold fileAt
    rw [hfiles]
    exact hrdf
  refine ⟨?_, hfiles, hpubeq⟩
  unfold publish
  dsimp only
  rw [hfa]
  dsimp only
  rw [hv]
  dsimp only
  rw [if_pos (by rw [hsnap]; exact hdup)]

/-- C2 witness: the amended behaviour at `conflictStore`: the conflict error
fires, files and the published registry are untouched, and the final store
is the scanned intermediate state. -/
theorem c2_witness :
    conflictStore.WF
    ∧ publish conflictStore 2 = (.error (.conflict "0.1.0"), publishScanned conflictStore 2)
    ∧ (publishScanned conflictStore 2).files = conflictStore.files
    ∧ (loadVersions (publishScanned conflictStore 2)).published
        = (loadVersions conflictStore).published := by
  have hc := c2_conflict_aborts_before_commit conflictStore 2 (by decide)
    { id := some "res", idEmoji := some "smile", version := some "0.1.0" } "0.1.0"
    (by decide) (by decide) (by decide)
  exact ⟨by decide, hc.1, hc.2.1, hc.2.2⟩

/-- C6: `unpack` aborts with a validation error — manifest id differing from
the resource id, or missing `id_emoji` — before writing any archive member
into the version's file area; only when both checks pass does it write every
member and record status `unpacked`. -/
theorem c6_unpack_validation (s : Store) (resId : String) (n : Nat) (packageUrl : String)
    (zipEntries : List (String × Obj)) (rdf0 : Rdf) (hwf : s.WF)
    (hrdf : alookup zipEntries "rdf.yaml" = some (.rdf rdf0)) :
    (∀ x, rdf0.id = some x → x ≠ resId →
      (unpack s resId n packageUrl zipEntries).1 = .error (.idMismatch resId x)
      ∧ ∀ filename, fileAt (unpack s resId n packageUrl zipEntries).2
          { folder := .staged n, rest := .filesEntry filename }
        = fileAt s { folder := .staged n, rest := .filesEntry filename })
    ∧ ((rdf0.id = none ∨ rdf0.id = some resId) → rdf0.idEmoji = none →
      (unpack s resId n packageUrl zipEntries).1 = .error .missingIdEmoji
      ∧ ∀ filename, fileAt (unpack s resId n packageUrl zipEntries).2
          { folder := .staged n, rest := .filesEntry filename }
        = fileAt s { folder := .staged n, rest := .filesEntry filename })
    ∧ ((rdf0.id = none ∨ rdf0.id = some resId) → rdf0.idEmoji ≠ none →
      (zipEntries.map (fun q => q.1)).Nodup → statusAt s n = none →
      (unpack s resId n packageUrl zipEntries).1 = .ok ()
      ∧ (∀ filename o, (filename, o) ∈ zipEntries →
          fileAt (unpack s resId n packageUrl zipEntries).2
            { folder := .staged n, rest := .filesEntry filename } = some o)
      ∧ statusAt (unpack s resId n packageUrl zipEntries).2 n = some .unpacked) := by
  refine ⟨?_, ?_, ?_⟩
  · intro x hx hne
    unfold unpack
    dsimp only
    rw [hrdf]
    dsimp only
    rw [validateRdf_mismatch n rdf0 hx hne]
    dsimp only
    exact ⟨rfl, fun filename =>
      fileAt_unpackPrepared s resId n packageUrl (by simp) (by simp)⟩
  · intro hid he
    unfold unpack
    dsimp only
    rw [hrdf]
    dsimp only
    rw [validateRdf_missingEmoji resId n rdf0 hid he]
    dsimp only
    exact ⟨rfl, fun filename =>
      fileAt_unpackPrepared s resId n packageUrl (by simp) (by simp)⟩
  · intro hid hemoji hnd habs
    obtain ⟨r', hval, hrid⟩ := validateRdf_ok resId n rdf0 hid hemoji
    have habs' : alookup (loadVersions s).staged n = none := by
      unfold statusAt at habs
      cases hl : alookup (loadVersions s).staged n with
      | none => rfl
      | some d => rw [hl] at habs; cases habs
    obtain ⟨hstat1, hwf1⟩ := statusAt_unpackPrepared_absent s resId n packageUrl hwf habs'
    unfold unpack
    dsimp only
    rw [hrdf]
    dsimp only
    rw [hval]
    dsimp only
    have hvd : loadVersions (zipEntries.foldl
        (fun acc q => putFile acc { folder := .staged n, rest := .filesEntry q.1 } q.2)
        (unpackPrepared s resId n packageUrl))
        = loadVersions (unpackPrepared s resId n packageUrl) :=
      congrArg (fun o : Option Versions => o.getD {})
        (versionsDoc_foldl_putFile zipEntries
          (fun q => { folder := Folder.staged n, rest := FilesKey.filesEntry q.1 })
          (fun q : String × Obj => q.2) (unpackPrepared s resId n packageUrl))
    have hwf2 : (zipEntries.foldl
        (fun acc q => putFile acc { folder := .staged n, rest := .filesEntry q.1 } q.2)
        (unpackPrepared s resId n packageUrl)).WF := by
      unfold Store.WF
      rw [hvd]
      exact hwf1
    refine ⟨rfl, ?_, ?_⟩
    · intro filename o hmem
      rw [fileAt_setStatus]
      exact fileAt_zipfold_mem zipEntries n _ hnd hmem
    · apply statusAt_setStatus_self_of_ge hwf2.1
      intro d hd
      rw [show loadVersions (zipEntries.foldl
          (fun acc q => putFile acc { folder := .staged n, rest := .filesEntry q.1 } q.2)
          (unpackPrepared s resId n packageUrl))
          = loadVersions (unpackPrepared s resId n packageUrl) from hvd] at hd
      have hds : d.status = .unpacking
          ("unzipping " ++ packageUrl ++ " to " ++ stagedFolderStr resId n) := by
        unfold statusAt at hstat1
        rw [hd] at hstat1
        simpa using hstat1
      rw [hds]
      simp [StagedVersionStatus.step]

/-- C6 witness: on an empty store, an archive whose manifest declares a
foreign id aborts with the mismatch error and writes nothing into the file
area; with a matching manifest every member lands in the file area and the
status reaches `unpacked`. -/
theorem c6_witness :
    ({} : Store).WF
    ∧ (unpack {} "res" 1 "http://pkg" (exampleArchive (some "other") (some "smile"))).1
        = .error (.idMismatch "res" "other")
    ∧ fileAt (unpack {} "res" 1 "http://pkg"
          (exampleArchive (some "other") (some "smile"))).2
        { folder := .staged 1, rest := .filesEntry "weights.bin" } = none
    ∧ (unpack {} "res" 1 "http://pkg" (exampleArchive (some "res") none)).1
        = .error .missingIdEmoji
    ∧ (unpack {} "res" 1 "http://pkg" (exampleArchive (some "res") (some "smile"))).1
        = .ok ()
    ∧ fileAt (unpack {} "res" 1 "http://pkg"
          (exampleArchive (some "res") (some "smile"))).2
        { folder := .staged 1, rest := .filesEntry "weights.bin" } = some (.blob "W")
    ∧ statusAt (unpack {} "res" 1 "http://pkg"
          (exampleArchive (some "res") (some "smile"))).2 1 = some .unpacked := by
  have hmis := (c6_unpack_validation {} "res" 1 "http://pkg"
    (exampleArchive (some "other") (some "smile"))
    { id := some "other", idEmoji := some "smile", version := some "0.1.0" }
    (by decide) (by decide)).1 "other" (by decide) (by decide)
  have hok := (c6_unpack_validation {} "res" 1 "http://pkg"
    (exampleArchive (some "res") (some "smile"))
    { id := some "res", idEmoji := some "smile", version := some "0.1.0" }
    (by decide) (by decide)).2.2 (by decide) (by decide) (by decide) (by decide)
  refine ⟨by decide, hmis.1, ?_, ?_, hok.1, ?_, hok.2.2⟩
  · rw [hmis.2 "weights.bin"]
    decide
  · exact ((c6_unpack_validation {} "res" 1 "http://pkg" (exampleArchive (some "res") none)
      { id := some "res", idEmoji := none, version := some "0.1.0" }
      (by decide) (by decide)).2.1 (by decide) (by decide)).1
  · exact hok.2.1 "weights.bin" (.blob "W") (by decide)

/-- C10: an absent manifest resource-identifier is not an error in `unpack`:
validation fills the field with this resource's id and proceeds, and the
mismatch error arises exactly when the field is present and differs from the
resource id. -/
theorem c10_absent_id_filled (resId : String) (n : Nat) :
    (∀ rdf : Rdf, rdf.id = none →
      validateRdf resId n rdf = validateRdf resId n { rdf with id := some resId })
    ∧ (∀ rdf : Rdf, rdf.id = none → rdf.idEmoji ≠ none →
      ∃ r', validateRdf resId n rdf = .ok r' ∧ r'.id = some resId)
    ∧ (∀ (rdf : Rdf) (x y : String),
        validateRdf resId n rdf = .error (.idMismatch x y) →
        x = resId ∧ rdf.id = some y ∧ y ≠ resId)
    ∧ (∀ (s : Store) (packageUrl : String) (zipEntries : List (String × Obj)) (rdf0 : Rdf),
        alookup zipEntries "rdf.yaml" = some (.rdf rdf0) →
        rdf0.id = none → rdf0.idEmoji ≠ none →
        (unpack s resId n packageUrl zipEntries).1 = .ok ()) := by
  refine ⟨?_, ?_, ?_, ?_⟩
  · intro rdf h
    unfold validateRdf
    rw [h]
    dsimp only
    rw [if_pos rfl]
  · intro rdf h he
    exact validateRdf_ok resId n rdf (Or.inl h) he
  · intro rdf x y hval
    unfold validateRdf validateRdf.validateRdfStamped at hval
    cases hid : rdf.id with
    | none =>
        rw [hid] at hval
        dsimp only at hval
        split at hval
        · cases hval
        · cases hval
    | some rid =>
        rw [hid] at hval
        dsimp only at hval
        by_cases hr : rid = resId
        · rw [if_pos hr] at hval
          split at hval
          · cases hval
          · cases hval
        · rw [if_neg hr] at hval
          injection hval with hval2
          injection hval2 with ha hb
          exact ⟨ha.symm, congrArg some hb, by rw [← hb]; exact hr⟩
  · intro s packageUrl zipEntries rdf0 hrdf hid he
    obtain ⟨r', hval, _⟩ := validateRdf_ok resId n rdf0 (Or.inl hid) he
    unfold unpack
    dsimp only
    rw [hrdf]
    dsimp only
    rw [hval]

/-- C10 witness: an archive whose manifest omits the id unpacks successfully
on an empty store, and its validation equals that of the id-filled
manifest. -/
theorem c10_witness :
    (unpack {} "res" 1 "http://pkg" (exampleArchive none (some "smile"))).1 = .ok ()
    ∧ validateRdf "res" 1 { id := none, idEmoji := some "smile", version := some "0.1.0" }
      = validateRdf "res" 1
          { id := some "res", idEmoji := some "smile", version := some "0.1.0" } :=
  ⟨(c10_absent_id_filled "res" 1).2.2.2 {} "http://pkg"
      (exampleArchive none (some "smile"))
      { id := none, idEmoji := some "smile", version := some "0.1.0" }
      (by decide) (by decide) (by decide),
   (c10_absent_id_filled "res" 1).1
      { id := none, idEmoji := some "smile", version := some "0.1.0" } rfl⟩

/-- C7 witness: after publishing stage 2, both staged objects are still at
their staged paths and the staged entry records `publishedStaged 2`. -/
theorem c7_witness :
    publishReadyStore.WF
    ∧ fileAt publishReadyStore { folder := .staged 2, rest := .filesEntry "weights.bin" }
        = some (.blob "W")
    ∧ fileAt (publish publishReadyStore 2).2
        { folder := .staged 2, rest := .filesEntry "weights.bin" } = some (.blob "W")
    ∧ alookup (loadVersions (publish publishReadyStore 2).2).staged 2
        = some { status := .publishedStaged 2 } := by
  have hc := c7_publish_keeps_staged publishReadyStore 2 2 (publish publishReadyStore 2).2
    (by decide) (by rfl)
  exact ⟨by decide, by decide,
    hc.1 { folder := .staged 2, rest := .filesEntry "weights.bin" } (.blob "W")
      (by decide) rfl, hc.2⟩

end Backoffice
